import Mathlib

/-!
Verification development for the LeetCode company-problems backend.

Shallow embedding of the core logic of `src/services/normalizer.js`
(the `Normalizer` text transforms and the `DataService` index builder /
query engine concatenated in that file).  JavaScript strings are modelled
as `List Char`; the JS whitespace class `\s` is modelled by the common
ASCII whitespace characters, `\w` by `[A-Za-z0-9_]`, and `toLowerCase`
by ASCII lowercasing (`Char.toLower`), which agree with JS on the data
this service handles.  Regex replacements that collapse runs
(`\s+ -> '-'`, `-+ -> '-'`, `\s+ -> ' '`) are written as structurally
recursive scans carrying an "inside a run" flag so that every definition
computes by kernel reduction.
-/

/-- JavaScript strings, modelled as lists of characters. -/
abbrev Str := List Char

/-- Shorthand to write a `Str` from a Lean string literal. -/
def chars (s : String) : Str := s.toList

/-- Model of the JS regex class `\s` (whitespace). -/
def isWs (c : Char) : Bool :=
  c == ' ' || c == '\t' || c == '\n' || c == '\r'

/-- Model of the JS regex class `\w` (word characters). -/
def isWordChar (c : Char) : Bool :=
  ('a' ≤ c && c ≤ 'z') || ('A' ≤ c && c ≤ 'Z') || ('0' ≤ c && c ≤ '9') || c == '_'

/-- Characters kept by `titleToSlug`'s `.replace(/[^\w\s-]/g, '')`:
word characters, whitespace and hyphens survive, everything else is deleted. -/
def keepC (c : Char) : Bool :=
  isWordChar c || isWs c || c == '-'

/-- The deletion pass `.replace(/[^\w\s-]/g, '')` of `titleToSlug`. -/
def rmSp (s : Str) : Str := s.filter keepC

/-- Model of JS `String.prototype.trim`: drop whitespace from both ends. -/
def jsTrim (s : Str) : Str :=
  ((s.dropWhile isWs).reverse.dropWhile isWs).reverse

/-- Scan for `.replace(/\s+/g, '-')`: each maximal whitespace run becomes a
single hyphen.  The boolean records whether the previous character was
part of a whitespace run whose hyphen has already been emitted. -/
def wsToHAux : Bool → Str → Str
  | _, [] => []
  | inRun, c :: cs =>
    if isWs c then
      if inRun then wsToHAux true cs else '-' :: wsToHAux true cs
    else c :: wsToHAux false cs

/-- The replacement `.replace(/\s+/g, '-')` of `titleToSlug`. -/
def wsToH (s : Str) : Str := wsToHAux false s

/-- Scan for the hyphen-collapsing replace (regex `-+` to `'-'`):
collapse hyphen runs to one hyphen. -/
def collapseHAux : Bool → Str → Str
  | _, [] => []
  | inRun, c :: cs =>
    if c == '-' then
      if inRun then collapseHAux true cs else '-' :: collapseHAux true cs
    else c :: collapseHAux false cs

/-- The hyphen-run-collapsing replacement (regex `-+` to `'-'`) of `titleToSlug`. -/
def collapseH (s : Str) : Str := collapseHAux false s

/-- Scan for `.replace(/\s+/g, ' ')` in `normalizeTitle`: each maximal
whitespace run becomes a single space. -/
def canonWsAux : Bool → Str → Str
  | _, [] => []
  | inRun, c :: cs =>
    if isWs c then
      if inRun then canonWsAux true cs else ' ' :: canonWsAux true cs
    else c :: canonWsAux false cs

/-- The replacement `.replace(/\s+/g, ' ')` of `normalizeTitle`. -/
def canonWs (s : Str) : Str := canonWsAux false s

/-- The final `.replace(/^-|-$/g, '')` of `titleToSlug`: the regex removes
one hyphen anchored at the start and one anchored at the end. -/
def trimH (s : Str) : Str :=
  let s1 := if s.head? = some '-' then s.tail else s
  if s1.getLast? = some '-' then s1.dropLast else s1

/-- `Normalizer.normalizeTitle`: lowercase, trim, collapse internal
whitespace runs to single spaces; empty input yields the empty string. -/
def normalizeTitle (t : Str) : Str :=
  if t = [] then [] else canonWs (jsTrim (t.map Char.toLower))

/-- `Normalizer.titleToSlug`: lowercase, trim, delete characters outside
`[\w\s-]`, turn whitespace runs into hyphens, collapse hyphen runs, strip
an anchored leading/trailing hyphen; empty input yields the empty string. -/
def titleToSlug (t : Str) : Str :=
  if t = [] then []
  else trimH (collapseH (wsToH (rmSp (jsTrim (t.map Char.toLower)))))

example : titleToSlug (chars "Two Sum") = chars "two-sum" := by decide
example : titleToSlug (chars "  Two   Sum! ") = chars "two-sum" := by decide
example : titleToSlug (chars "Two,Sum") = chars "twosum" := by decide
example : normalizeTitle (chars " Two   Sum ") = chars "two sum" := by decide

/-! ## Data model of the DataService (`class DataService` in the same file) -/

/-- One parsed CSV row, as produced by the external parser: a title plus an
optional frequency (`none` models an absent `frequency` property). -/
structure RawProblem where
  title : Str
  frequency : Option Int
deriving DecidableEq

/-- Output of the parser: `company -> timeRange -> [RawProblem]`, modelled as
insertion-ordered association lists (JS `Object.entries` order). -/
abbrev ParsedData := List (Str × List (Str × List RawProblem))

/-- Raw fetcher output `company -> timeRange -> rawCsvText` (opaque to the
core; only its success or failure matters to `updateData`). -/
abbrev RepoData := List (Str × List (Str × Str))

/-- One per-company aggregate inside a problem entry: name, running max
frequency, the set of time-range labels seen (JS object keys, in insertion
order) and the derived `last_seen` label. -/
structure CompanyEntry where
  name : Str
  frequency : Int
  timeRanges : List Str
  last_seen : Str
deriving DecidableEq

/-- One canonical problem entry of the index. -/
structure ProblemData where
  problem : Str
  slug : Str
  companies : List CompanyEntry
deriving DecidableEq

/-- The mutable fields of the `DataService` singleton.  `problemMap` is the
insertion-ordered `Map slug -> ProblemData` (the slug is stored in each
entry); `titleMap` is the `Map normalizedTitle -> slug`. -/
structure DSState where
  problemMap : List ProblemData
  titleMap : List (Str × Str)
  lastUpdated : Option Str
  totalProblems : Nat
  totalCompanies : Nat
deriving DecidableEq

/-- The fixed window order of `getShortestRange`. -/
def rangeOrder : List Str :=
  [chars "30-days", chars "60-days", chars "90-days", chars "all-time"]

/-- `DataService.getShortestRange`: first window of the fixed order present
in `ranges`, falling back to `'all-time'`. -/
def getShortestRange (ranges : List Str) : Str :=
  match rangeOrder.find? (fun r => ranges.contains r) with
  | some r => r
  | none => chars "all-time"

/-- The frequency update of `buildProblemIndex`
(`if (problem.frequency) { entry.frequency = Math.max(entry.frequency, problem.frequency) }`):
an absent or zero (falsy) frequency leaves the entry unchanged. -/
def freqUpdate (cur : Int) (f : Option Int) : Int :=
  match f with
  | none => cur
  | some v => if v = 0 then cur else max cur v

/-- The per-record update of an existing company entry: fold in the record's
frequency, mark the time range as seen, recompute `last_seen`. -/
def updateEntry (timeRange : Str) (f : Option Int) (e : CompanyEntry) : CompanyEntry :=
  let trs := if e.timeRanges.contains timeRange then e.timeRanges
             else e.timeRanges ++ [timeRange]
  { e with
    frequency := freqUpdate e.frequency f
    timeRanges := trs
    last_seen := getShortestRange trs }

/-- Find the first entry for `companyName` and update it in place, or append
a fresh `{name, frequency: 0, timeRanges: {}}` entry and update that
(`companies.find` + push in the source). -/
def updateCompanies (companyName timeRange : Str) (f : Option Int) :
    List CompanyEntry → List CompanyEntry
  | [] => [updateEntry timeRange f
            { name := companyName, frequency := 0, timeRanges := [], last_seen := [] }]
  | e :: es =>
    if e.name = companyName then updateEntry timeRange f e :: es
    else e :: updateCompanies companyName timeRange f es

/-- JS `Map.prototype.set`: replace the value at an existing key in place,
otherwise append the binding. -/
def tmSet (tm : List (Str × Str)) (k v : Str) : List (Str × Str) :=
  if tm.any (fun e => e.1 = k) then
    tm.map (fun e => if e.1 = k then (k, v) else e)
  else tm ++ [(k, v)]

/-- Process one record of `buildProblemIndex`'s triple loop: register the
problem (and its title-lookup binding) on first sight, then update the
company aggregate of that problem. -/
def processRecord (companyName timeRange : Str)
    (acc : List ProblemData × List (Str × Str)) (p : RawProblem) :
    List ProblemData × List (Str × Str) :=
  let slug := titleToSlug p.title
  let pm := acc.1
  let tm := acc.2
  let (pm, tm) :=
    if pm.any (fun d => d.slug = slug) then (pm, tm)
    else (pm ++ [{ problem := p.title, slug := slug, companies := [] }],
          tmSet tm (normalizeTitle p.title) slug)
  (pm.map (fun d =>
     if d.slug = slug then
       { d with companies := updateCompanies companyName timeRange p.frequency d.companies }
     else d),
   tm)

/-- Process all records of one company/time-range file. -/
def processRange (companyName : Str) (acc : List ProblemData × List (Str × Str))
    (re : Str × List RawProblem) : List ProblemData × List (Str × Str) :=
  re.2.foldl (processRecord companyName re.1) acc

/-- Process all time-range files of one company. -/
def processCompany (acc : List ProblemData × List (Str × Str))
    (ce : Str × List (Str × List RawProblem)) : List ProblemData × List (Str × Str) :=
  ce.2.foldl (processRange ce.1) acc

/-- The accumulation phase of `buildProblemIndex`, before sorting:
the problem map and title map in discovery order. -/
def buildRaw (pd : ParsedData) : List ProblemData × List (Str × Str) :=
  pd.foldl processCompany ([], [])

/-- One step of the stable descending insertion modelling the JS stable
`sort((a, b) => b.frequency - a.frequency)`: `c` moves in front of the first
entry with strictly smaller frequency, hence after every earlier entry with
equal or larger frequency. -/
def insertDesc (c : CompanyEntry) : List CompanyEntry → List CompanyEntry
  | [] => [c]
  | d :: ds => if d.frequency < c.frequency then c :: d :: ds else d :: insertDesc c ds

/-- Stable descending sort by `frequency` (JS `Array.prototype.sort` is
stable): insert the entries left to right. -/
def sortCompaniesDesc (l : List CompanyEntry) : List CompanyEntry :=
  l.foldl (fun acc c => insertDesc c acc) []

/-- `DataService.buildProblemIndex`: accumulate the index, sort each
problem's companies by descending frequency, then assign the four state
fields.  The companies count is the size of the JS `Set` of company names. -/
def buildProblemIndex (st : DSState) (pd : ParsedData) : DSState :=
  let raw := buildRaw pd
  let pm := raw.1.map (fun d => { d with companies := sortCompaniesDesc d.companies })
  { st with
    problemMap := pm
    titleMap := raw.2
    totalProblems := pm.length
    totalCompanies := (pd.map Prod.fst).eraseDups.length }

/-- `DataService.updateData`: fetch, parse, build, then stamp
`lastUpdated`; any error aborts and is rethrown with the state untouched
(`buildProblemIndex` only assigns its fields after the whole loop
finishes, so a throw at any stage leaves every field unchanged).  The
fetch/parse/build stages are passed in as fallible functions so that a
failure of any stage can be expressed; the real build stage is
`fun s p => Except.ok (buildProblemIndex s p)`. -/
def updateData (st : DSState) (fetched : Except Str RepoData)
    (parse : RepoData → Except Str ParsedData)
    (buildStep : DSState → ParsedData → Except Str DSState)
    (now : Str) : DSState × Except Str Unit :=
  match fetched with
  | .error e => (st, .error e)
  | .ok repo =>
    match parse repo with
    | .error e => (st, .error e)
    | .ok pd =>
      match buildStep st pd with
      | .error e => (st, .error e)
      | .ok st1 => ({ st1 with lastUpdated := some now }, .ok ())

/-- `DataService.getStatus`: the status payload. -/
def getStatus (st : DSState) : Option Str × Nat × Nat :=
  (st.lastUpdated, st.totalProblems, st.totalCompanies)

/-! ## Query engine -/

/-- The external range-token table of `filterByTimeRange`
(`{'30': '30-days', '60': '60-days', '90': '90-days', 'all': 'all-time'}`);
an unmapped token passes through unchanged. -/
def rangeMapApply (t : Str) : Str :=
  if t = chars "30" then chars "30-days"
  else if t = chars "60" then chars "60-days"
  else if t = chars "90" then chars "90-days"
  else if t = chars "all" then chars "all-time"
  else t

/-- `DataService.getIncludedRanges`: the cumulative window hierarchy, with
every unrecognized target falling back to the full list. -/
def getIncludedRanges (target : Str) : List Str :=
  if target = chars "30-days" then [chars "30-days"]
  else if target = chars "60-days" then [chars "30-days", chars "60-days"]
  else if target = chars "90-days" then
    [chars "30-days", chars "60-days", chars "90-days"]
  else if target = chars "all-time" then
    [chars "30-days", chars "60-days", chars "90-days", chars "all-time"]
  else [chars "30-days", chars "60-days", chars "90-days", chars "all-time"]

/-- The projected form of a company (the object literal built inside
`filterByTimeRange`'s `.map`): the `timeRanges` field is not copied. -/
structure ProjectedCompany where
  name : Str
  frequency : Int
  last_seen : Str
deriving DecidableEq

/-- The projection to `{name, frequency, last_seen}`. -/
def projectCompany (c : CompanyEntry) : ProjectedCompany :=
  { name := c.name, frequency := c.frequency, last_seen := c.last_seen }

/-- Result of `filterByTimeRange`: either the full (deep-cloned) problem, or
the filtered-and-projected shape. -/
inductive QueryResult where
  | full (pd : ProblemData)
  | filtered (problem slug : Str) (companies : List ProjectedCompany)
deriving DecidableEq

/-- `DataService.filterByTimeRange`.  A missing or empty (falsy) time range
returns the deep clone of the whole entry; otherwise the companies are
filtered by intersection with the included ranges and projected, in order. -/
def filterByTimeRange (pd : ProblemData) (timeRange : Option Str) : QueryResult :=
  match timeRange with
  | none => .full pd
  | some tr =>
    if tr.isEmpty then .full pd
    else
      let included := getIncludedRanges (rangeMapApply tr)
      .filtered pd.problem pd.slug
        ((pd.companies.filter
            (fun c => included.any (fun r => c.timeRanges.contains r))).map projectCompany)

/-- Does `hay` start with `needle`?  (Helper for the substring check.) -/
def leadsWith : Str → Str → Bool
  | [], _ => true
  | _ :: _, [] => false
  | a :: as, b :: bs => a == b && leadsWith as bs

/-- Model of JS `String.prototype.includes hay.includes(needle)`:
`needle` occurs as a contiguous substring of `hay`. -/
def jsIncludes : Str → Str → Bool
  | [], needle => needle.isEmpty
  | c :: t, needle => leadsWith needle (c :: t) || jsIncludes t needle

/-- One search hit (`{problem, slug, companyCount}`). -/
structure SearchResult where
  problem : Str
  slug : Str
  companyCount : Nat
deriving DecidableEq

/-- The search projection. -/
def toSearchResult (d : ProblemData) : SearchResult :=
  { problem := d.problem, slug := d.slug, companyCount := d.companies.length }

/-- The scan loop of `searchProblems`: `cnt` is `results.length`; after a
push the loop breaks as soon as `results.length >= limit`. -/
def searchLoop (nq : Str) (limit : Int) : List ProblemData → Int → List SearchResult
  | [], _ => []
  | d :: rest, cnt =>
    if jsIncludes (d.problem.map Char.toLower) nq || jsIncludes d.slug nq then
      if cnt + 1 ≥ limit then [toSearchResult d]
      else toSearchResult d :: searchLoop nq limit rest (cnt + 1)
    else searchLoop nq limit rest cnt

/-- `DataService.searchProblems`: lowercase and trim the query, then scan
the index in insertion order. -/
def searchProblems (st : DSState) (query : Str) (limit : Int) : List SearchResult :=
  searchLoop (jsTrim (query.map Char.toLower)) limit st.problemMap 0

/-! ## Concrete fixtures used below -/

/-- An empty initial service state (as after the constructor). -/
def st0 : DSState :=
  { problemMap := [], titleMap := [], lastUpdated := none
    totalProblems := 0, totalCompanies := 0 }

/-- A one-company, one-problem parsed data set. -/
def demoParsed : ParsedData :=
  [(chars "Acme", [(chars "30-days", [{ title := chars "Two Sum", frequency := some 5 }])])]

/-- The state after building `demoParsed`. -/
def st1 : DSState := buildProblemIndex st0 demoParsed

example : st1.totalProblems = 1 := by decide
example : st1.problemMap =
    [{ problem := chars "Two Sum", slug := chars "two-sum",
       companies := [{ name := chars "Acme", frequency := 5,
                       timeRanges := [chars "30-days"], last_seen := chars "30-days" }] }] := by
  decide

/-! ## Lemmas about the normalizer -/

/-- Collapsing whitespace runs to single spaces before the slug pipeline
does not change what the whitespace-to-hyphen pass produces, in any of the
reachable combinations of run states. -/
theorem wsToH_rmSp_canonWsAux (s : Str) :
    wsToHAux false (rmSp (canonWsAux false s)) = wsToHAux false (rmSp s)
  ∧ wsToHAux true (rmSp (canonWsAux true s)) = wsToHAux true (rmSp s)
  ∧ wsToHAux true (rmSp (canonWsAux false s)) = wsToHAux true (rmSp s) := by
  induction s with
  | nil => exact ⟨rfl, rfl, rfl⟩
  | cons c cs ih =>
    obtain ⟨ih1, ih2, ih3⟩ := ih
    by_cases hw : isWs c = true
    · have hk : keepC c = true := by simp [keepC, hw]
      have hsp : isWs ' ' = true := by decide
      have h2 : wsToHAux true (List.filter keepC (canonWsAux true cs))
          = wsToHAux true (List.filter keepC cs) := by simpa [rmSp] using ih2
      refine ⟨?_, ?_, ?_⟩ <;>
        simp [canonWsAux, rmSp, List.filter_cons, hw, hk, wsToHAux, hsp, h2]
    · by_cases hk : keepC c = true
      · have h1 : wsToHAux false (List.filter keepC (canonWsAux false cs))
            = wsToHAux false (List.filter keepC cs) := by simpa [rmSp] using ih1
        refine ⟨?_, ?_, ?_⟩ <;>
          simp [canonWsAux, rmSp, List.filter_cons, hw, hk, wsToHAux, h1]
      · have h1 : wsToHAux false (List.filter keepC (canonWsAux false cs))
            = wsToHAux false (List.filter keepC cs) := by simpa [rmSp] using ih1
        have h3 : wsToHAux true (List.filter keepC (canonWsAux false cs))
            = wsToHAux true (List.filter keepC cs) := by simpa [rmSp] using ih3
        refine ⟨?_, ?_, ?_⟩ <;>
          simp [canonWsAux, rmSp, List.filter_cons, hw, hk, wsToHAux, h1, h3]

/-- The slug factors through the comparison normal form: `titleToSlug`
equals the slug pipeline applied to `normalizeTitle`'s output. -/
theorem titleToSlug_factors (t : Str) :
    titleToSlug t = trimH (collapseH (wsToH (rmSp (normalizeTitle t)))) := by
  by_cases h : t = []
  · subst h; rfl
  · simp only [titleToSlug, normalizeTitle, h, if_neg h, wsToH, canonWs]
    exact congrArg (fun s => trimH (collapseH s))
      (wsToH_rmSp_canonWsAux (jsTrim (t.map Char.toLower))).1.symm

/-! ## C4: identity-key stability under case and whitespace variation -/

/-- Modelled from the claim's words: two titles "differ only in case,
punctuation, or incidental whitespace" exactly when they agree after
lowercasing and deleting every character that is not a letter or digit. -/
def letterDigitSkeleton (t : Str) : Str :=
  (t.map Char.toLower).filter (fun c => ('a' ≤ c && c ≤ 'z') || ('0' ≤ c && c ≤ '9'))

/-- C4 (counterexample): `"Two Sum"` and `"Two,Sum"` differ only in
punctuation versus whitespace, yet their identity keys differ
(`two-sum` versus `twosum`): punctuation is deleted without acting as a
separator, so the claim as stated is false. -/
theorem titleToSlug_punctuation_counterexample :
    letterDigitSkeleton (chars "Two Sum") = letterDigitSkeleton (chars "Two,Sum")
    ∧ titleToSlug (chars "Two Sum") ≠ titleToSlug (chars "Two,Sum") := by
  decide

/-- C4 (amended): two titles that differ only in case, surrounding
whitespace, or internal whitespace run-length — i.e. titles with the same
comparison normal form `normalizeTitle` — receive the same identity key. -/
theorem titleToSlug_respects_normalizeTitle (t1 t2 : Str)
    (h : normalizeTitle t1 = normalizeTitle t2) :
    titleToSlug t1 = titleToSlug t2 := by
  rw [titleToSlug_factors t1, titleToSlug_factors t2, h]

/-- C4 (witness): `"Two   Sum"` and `" two sum "` differ only in case and
whitespace and indeed share the identity key. -/
theorem titleToSlug_respects_normalizeTitle_witness :
    normalizeTitle (chars "Two   Sum") = normalizeTitle (chars " two sum ")
    ∧ titleToSlug (chars "Two   Sum") = titleToSlug (chars " two sum ") :=
  ⟨by decide, titleToSlug_respects_normalizeTitle _ _ (by decide)⟩

/-! ## C8: the cumulative window hierarchy -/

/-- C8: the window-inclusion table is the cumulative hierarchy: `30-days`
includes only itself, `60-days` adds `30-days`, `90-days` adds both,
`all-time` includes all four; the external token `all` maps to `all-time`,
and every unrecognized target falls back to the full fixed-order list
instead of failing. -/
theorem getIncludedRanges_hierarchy :
    getIncludedRanges (chars "30-days") = [chars "30-days"]
    ∧ getIncludedRanges (chars "60-days") = [chars "30-days", chars "60-days"]
    ∧ getIncludedRanges (chars "90-days")
        = [chars "30-days", chars "60-days", chars "90-days"]
    ∧ getIncludedRanges (chars "all-time")
        = [chars "30-days", chars "60-days", chars "90-days", chars "all-time"]
    ∧ rangeMapApply (chars "all") = chars "all-time"
    ∧ (∀ t : Str, t ≠ chars "30-days" → t ≠ chars "60-days" →
        t ≠ chars "90-days" → t ≠ chars "all-time" →
        getIncludedRanges t
          = [chars "30-days", chars "60-days", chars "90-days", chars "all-time"]) := by
  refine ⟨by decide, by decide, by decide, by decide, by decide, ?_⟩
  intro t h30 h60 h90 hall
  simp [getIncludedRanges, h30, h60, h90, hall]

/-- C8 (witness): the ingestion-side label `180-days` is not one of the
four recognized targets and falls back to the broadest inclusion list. -/
theorem getIncludedRanges_hierarchy_witness :
    getIncludedRanges (chars "180-days")
      = [chars "30-days", chars "60-days", chars "90-days", chars "all-time"] :=
  getIncludedRanges_hierarchy.2.2.2.2.2 (chars "180-days")
    (by decide) (by decide) (by decide) (by decide)

/-! ## C1: building from empty parsed data -/

/-- C1 (counterexample): from a state holding one problem, rebuilding with
an empty parsed mapping does not fail: `buildProblemIndex` returns a
snapshot with zero problems (destroying the previous one), and the full
`updateData` pipeline reports success. -/
theorem build_empty_counterexample :
    st1.totalProblems = 1
    ∧ (buildProblemIndex st1 []).totalProblems = 0
    ∧ (buildProblemIndex st1 []).problemMap = []
    ∧ (updateData st1 (.ok []) (fun _ => .ok [])
        (fun s p => .ok (buildProblemIndex s p)) (chars "now")).2 = .ok () :=
  ⟨by decide, by decide, by decide, rfl⟩

/-- C1 (amended): building from an empty parsed mapping succeeds rather
than failing with a "no data" error: it installs the empty snapshot (no
problems, no companies, empty title lookup), replacing whatever snapshot
was active, and `updateData` then stamps `lastUpdated` and reports
success.  (The only "no data" guard in this program lives in the fetch
stage, which throws before `buildProblemIndex` runs when the downloaded
repository contains zero companies.) -/
theorem build_empty_installs_empty_snapshot (st : DSState) (now : Str) :
    buildProblemIndex st []
      = { st with problemMap := [], titleMap := [],
                  totalProblems := 0, totalCompanies := 0 }
    ∧ updateData st (.ok []) (fun _ => .ok [])
        (fun s p => .ok (buildProblemIndex s p)) now
      = ({ buildProblemIndex st [] with lastUpdated := some now }, .ok ()) :=
  ⟨rfl, rfl⟩

/-! ## C2: a failed rebuild leaves the active snapshot untouched -/

/-- C2: whenever `updateData` surfaces an error — whether the fetch stage,
the parse stage or the build stage failed — the service state is returned
completely unchanged: the problem index, title lookup and counts are those
of the previous snapshot, so `status().totalProblems` is unchanged. -/
theorem updateData_failure_preserves_snapshot
    (st : DSState) (fetched : Except Str RepoData)
    (parse : RepoData → Except Str ParsedData)
    (buildStep : DSState → ParsedData → Except Str DSState)
    (now : Str) (e : Str)
    (h : (updateData st fetched parse buildStep now).2 = Except.error e) :
    (updateData st fetched parse buildStep now).1 = st
    ∧ getStatus (updateData st fetched parse buildStep now).1 = getStatus st
    ∧ ((updateData st fetched parse buildStep now).1).totalProblems
        = st.totalProblems := by
  have hst : (updateData st fetched parse buildStep now).1 = st := by
    cases fetched with
    | error e' => rfl
    | ok repo =>
      cases hp : parse repo with
      | error e' => simp [updateData, hp]
      | ok pd =>
        cases hb : buildStep st pd with
        | error e' => simp [updateData, hp, hb]
        | ok st2 => simp [updateData, hp, hb] at h
  exact ⟨hst, by rw [hst], by rw [hst]⟩

/-- C2 (witness): a concrete failed fetch leaves the one-problem snapshot
`st1` fully intact. -/
theorem updateData_failure_preserves_snapshot_witness :
    (updateData st1 (.error (chars "fetch failed")) (fun _ => .ok [])
        (fun s p => .ok (buildProblemIndex s p)) (chars "now")).2
      = Except.error (chars "fetch failed")
    ∧ (updateData st1 (.error (chars "fetch failed")) (fun _ => .ok [])
        (fun s p => .ok (buildProblemIndex s p)) (chars "now")).1 = st1 :=
  ⟨rfl, (updateData_failure_preserves_snapshot st1 (.error (chars "fetch failed"))
      (fun _ => .ok []) (fun s p => .ok (buildProblemIndex s p)) (chars "now")
      (chars "fetch failed") rfl).1⟩

/-! ## C3: the windowed projection -/

/-- Every window in an inclusion list is one of the four canonical windows
of the fixed order (in particular, never `180-days`). -/
theorem mem_getIncludedRanges_sub (t r : Str) (h : r ∈ getIncludedRanges t) :
    r ∈ rangeOrder := by
  unfold getIncludedRanges at h
  split at h
  · simp_all [rangeOrder]
  · split at h
    · simp_all [rangeOrder]
      tauto
    · split at h
      · simp_all [rangeOrder]
        tauto
      · split at h <;> simp_all [rangeOrder]

/-- The boolean intersection test of `filterByTimeRange` decides
set-intersection of the included ranges with the entry's seen windows. -/
theorem any_contains_eq_decide_inter (incl trs : List Str) :
    (incl.any (fun r => trs.contains r)) = decide (∃ r ∈ incl, r ∈ trs) := by
  by_cases h : ∃ r ∈ incl, r ∈ trs
  · simp only [h, decide_True]
    obtain ⟨r, hr, hm⟩ := h
    exact List.any_eq_true.mpr ⟨r, hr, List.elem_iff.mpr hm⟩
  · simp only [h, decide_False]
    rw [List.any_eq_false]
    intro r hr hc
    exact h ⟨r, hr, List.elem_iff.mp hc⟩

/-- C3: a windowed lookup keeps exactly the companies whose seen windows
intersect the inclusion set of the (token-mapped) requested window, each
projected to `{name, frequency, last_seen}` — the `timeRanges` field is not
part of the projected shape — and the projected list is a sublist of the
problem's companies in their stored (already sorted) order: no re-sort. -/
theorem filterByTimeRange_windowed (pd : ProblemData) (w : Str) (hw : w ≠ []) :
    filterByTimeRange pd (some w)
      = QueryResult.filtered pd.problem pd.slug
          ((pd.companies.filter
              (fun c => decide (∃ r ∈ getIncludedRanges (rangeMapApply w),
                r ∈ c.timeRanges))).map projectCompany)
    ∧ List.Sublist
        ((pd.companies.filter
            (fun c => decide (∃ r ∈ getIncludedRanges (rangeMapApply w),
              r ∈ c.timeRanges))).map projectCompany)
        (pd.companies.map projectCompany) := by
  have hne : w.isEmpty = false := by
    cases w with
    | nil => exact absurd rfl hw
    | cons a as => rfl
  constructor
  · simp only [filterByTimeRange, hne, Bool.false_eq_true, if_false]
    exact congrArg (fun l => QueryResult.filtered pd.problem pd.slug l)
      (congrArg (List.map projectCompany)
        (List.filter_congr (fun c _ => any_contains_eq_decide_inter _ _)))
  · exact List.Sublist.map projectCompany (List.filter_sublist _)

/-- C3 (witness): the windowed projection evaluated on the demo problem at
the external token `90`. -/
theorem filterByTimeRange_windowed_witness :
    (chars "90" : Str) ≠ []
    ∧ (filterByTimeRange
        { problem := chars "Two Sum", slug := chars "two-sum",
          companies := [{ name := chars "Acme", frequency := 5,
                          timeRanges := [chars "30-days"],
                          last_seen := chars "30-days" }] }
        (some (chars "90"))
      = QueryResult.filtered (chars "Two Sum") (chars "two-sum")
          (([{ name := chars "Acme", frequency := 5,
               timeRanges := [chars "30-days"],
               last_seen := chars "30-days" }].filter
              (fun c => decide (∃ r ∈ getIncludedRanges (rangeMapApply (chars "90")),
                r ∈ c.timeRanges))).map projectCompany)) :=
  ⟨by decide,
   (filterByTimeRange_windowed
     { problem := chars "Two Sum", slug := chars "two-sum",
       companies := [{ name := chars "Acme", frequency := 5,
                       timeRanges := [chars "30-days"],
                       last_seen := chars "30-days" }] }
     (chars "90") (by decide)).1⟩

/-! ## C5: pairs seen only in the `180-days` window -/

/-- C5 (counterexample): a problem-company pair seen only under `180-days`
does get `all-time` as its `last_seen` fallback, but a query requesting the
broadest window (external token `all`) does NOT include it: the inclusion
list of `all-time` never mentions `180-days`, so the company list comes
back empty. -/
theorem broadest_window_excludes_180_counterexample :
    (buildProblemIndex st0
        [(chars "Acme",
          [(chars "180-days",
            [{ title := chars "Two Sum", frequency := some 5 }])])]).problemMap
      = [{ problem := chars "Two Sum", slug := chars "two-sum",
           companies := [{ name := chars "Acme", frequency := 5,
                           timeRanges := [chars "180-days"],
                           last_seen := chars "all-time" }] }]
    ∧ filterByTimeRange
        { problem := chars "Two Sum", slug := chars "two-sum",
          companies := [{ name := chars "Acme", frequency := 5,
                          timeRanges := [chars "180-days"],
                          last_seen := chars "all-time" }] }
        (some (chars "all"))
      = QueryResult.filtered (chars "Two Sum") (chars "two-sum") [] := by
  decide

/-- C5 (amended): a company entry whose seen windows are all `180-days` gets
`last_seen = all-time` (the fallback of `getShortestRange`), and it is
excluded from EVERY windowed query — including the one requesting the
broadest window — because no inclusion list contains `180-days`; only the
unwindowed lookup (no time range requested) still returns it, as part of
the full problem clone. -/
theorem only180_lastSeen_and_excluded (pd : ProblemData) (w : Str) (c : CompanyEntry)
    (hw : w ≠ []) (hc : c ∈ pd.companies)
    (h180 : ∀ r ∈ c.timeRanges, r = chars "180-days") :
    getShortestRange c.timeRanges = chars "all-time"
    ∧ c ∉ pd.companies.filter
        (fun d => (getIncludedRanges (rangeMapApply w)).any
          (fun r => d.timeRanges.contains r))
    ∧ filterByTimeRange pd (some w)
        = QueryResult.filtered pd.problem pd.slug
            ((pd.companies.filter
                (fun d => (getIncludedRanges (rangeMapApply w)).any
                  (fun r => d.timeRanges.contains r))).map projectCompany)
    ∧ filterByTimeRange pd none = QueryResult.full pd := by
  have hnotin : ∀ r ∈ c.timeRanges, r ∉ rangeOrder := by
    intro r hr
    rw [h180 r hr]
    decide
  refine ⟨?_, ?_, ?_, rfl⟩
  · unfold getShortestRange
    rw [List.find?_eq_none.mpr ?_]
    intro r hr hcon
    exact hnotin r (List.elem_iff.mp hcon) hr
  · intro hmem
    have hp := (List.mem_filter.mp hmem).2
    rw [List.any_eq_true] at hp
    obtain ⟨r, hr, hcon⟩ := hp
    exact hnotin r (List.elem_iff.mp hcon) (mem_getIncludedRanges_sub _ _ hr)
  · have hne : w.isEmpty = false := by
      cases w with
      | nil => exact absurd rfl hw
      | cons a as => rfl
    simp only [filterByTimeRange, hne, Bool.false_eq_true, if_false]

/-- C5 (witness): the amended behavior on the concrete `180-days`-only
entry built above, queried with the broadest token `all`. -/
theorem only180_lastSeen_and_excluded_witness :
    (chars "all" : Str) ≠ []
    ∧ ({ name := chars "Acme", frequency := 5,
         timeRanges := [chars "180-days"],
         last_seen := chars "all-time" } : CompanyEntry) ∈
        [({ name := chars "Acme", frequency := 5,
            timeRanges := [chars "180-days"],
            last_seen := chars "all-time" } : CompanyEntry)]
    ∧ getShortestRange [chars "180-days"] = chars "all-time" :=
  ⟨by decide, by decide,
   (only180_lastSeen_and_excluded
      { problem := chars "Two Sum", slug := chars "two-sum",
        companies := [{ name := chars "Acme", frequency := 5,
                        timeRanges := [chars "180-days"],
                        last_seen := chars "all-time" }] }
      (chars "all")
      { name := chars "Acme", frequency := 5,
        timeRanges := [chars "180-days"], last_seen := chars "all-time" }
      (by decide) (by decide) (by decide)).1⟩

/-! ## C7: the frequency aggregation -/

/-- The frequencies that actually move the running maximum: present and
strictly positive ones. -/
def posFreqs (fs : List (Option Int)) : List Int :=
  (fs.filterMap id).filter (fun v => decide (0 < v))

/-- Folding one record with the other order of two records gives the same
entry frequency (the update is right-commutative). -/
theorem freqUpdate_right_comm (b : Int) (f1 f2 : Option Int) :
    freqUpdate (freqUpdate b f1) f2 = freqUpdate (freqUpdate b f2) f1 := by
  cases f1 <;> cases f2 <;> simp [freqUpdate] <;> split_ifs <;> try rfl
  exact sup_right_comm b _ _

/-- Starting from a non-negative accumulator, the frequency fold computes
exactly the running maximum of the positive present frequencies. -/
theorem foldl_freqUpdate_eq_max (fs : List (Option Int)) :
    ∀ cur : Int, 0 ≤ cur →
      List.foldl freqUpdate cur fs = List.foldl max cur (posFreqs fs) := by
  induction fs with
  | nil => intro cur _; rfl
  | cons f t ih =>
    intro cur hcur
    cases f with
    | none => simpa [posFreqs, List.filterMap_cons] using ih cur hcur
    | some v =>
      by_cases hz : v = 0
      · subst hz
        simpa [posFreqs, List.filterMap_cons, List.filter_cons, freqUpdate]
          using ih cur hcur
      · by_cases hpos : 0 < v
        · have : List.foldl freqUpdate (max cur v) t
              = List.foldl max (max cur v) (posFreqs t) :=
            ih (max cur v) (le_trans hcur (le_max_left _ _))
          simpa [posFreqs, List.filterMap_cons, List.filter_cons, hpos,
            freqUpdate, hz] using this
        · have hmax : max cur v = cur :=
            max_eq_left (le_trans (le_of_not_lt hpos) hcur)
          simpa [posFreqs, List.filterMap_cons, List.filter_cons, hpos,
            freqUpdate, hz, hmax] using ih cur hcur

/-- Folding in more records never decreases the accumulated frequency. -/
theorem le_foldl_freqUpdate (fs : List (Option Int)) :
    ∀ cur : Int, cur ≤ List.foldl freqUpdate cur fs := by
  induction fs with
  | nil => intro cur; exact le_refl cur
  | cons f t ih =>
    intro cur
    refine le_trans ?_ (ih (freqUpdate cur f))
    cases f with
    | none => exact le_refl cur
    | some v =>
      by_cases hz : v = 0 <;> simp [freqUpdate, hz]

/-! ## C9: each problem's companies are sorted descending, stably -/

/-- Descending order by `frequency` (what the JS comparator
`(a, b) => b.frequency - a.frequency` sorts by). -/
def freqDescSorted (l : List CompanyEntry) : Prop :=
  List.Pairwise (fun a b => b.frequency ≤ a.frequency) l

/-- Membership through one stable insertion step. -/
theorem mem_insertDesc {x c : CompanyEntry} :
    ∀ {l : List CompanyEntry}, x ∈ insertDesc c l ↔ x = c ∨ x ∈ l := by
  intro l
  induction l with
  | nil => simp [insertDesc]
  | cons d ds ih =>
    by_cases h : d.frequency < c.frequency
    · simp [insertDesc, h]
    · simp only [insertDesc, h, if_false, List.mem_cons, ih]
      tauto

/-- A stable insertion step preserves descending sortedness. -/
theorem insertDesc_sorted (c : CompanyEntry) :
    ∀ l : List CompanyEntry, freqDescSorted l → freqDescSorted (insertDesc c l) := by
  intro l
  induction l with
  | nil => intro _; simp [insertDesc, freqDescSorted]
  | cons d ds ih =>
    intro h
    rw [freqDescSorted, List.pairwise_cons] at h
    obtain ⟨hd, hds⟩ := h
    by_cases hlt : d.frequency < c.frequency
    · rw [freqDescSorted]
      simp only [insertDesc, hlt, if_true, List.pairwise_cons]
      refine ⟨?_, ⟨hd, hds⟩⟩
      intro x hx
      rcases List.mem_cons.mp hx with h1 | h2
      · subst h1; exact le_of_lt hlt
      · exact le_trans (hd x h2) (le_of_lt hlt)
    · rw [freqDescSorted]
      simp only [insertDesc, hlt, if_false, List.pairwise_cons]
      refine ⟨?_, ih hds⟩
      intro x hx
      rcases mem_insertDesc.mp hx with h1 | h2
      · subst h1; exact le_of_not_lt hlt
      · exact hd x h2

/-- Stability of one insertion step: on a descending-sorted list, the new
entry lands after every existing entry of equal frequency, so the
equal-frequency fiber just gains the new entry at its end. -/
theorem insertDesc_filter (c : CompanyEntry) (k : Int) :
    ∀ l : List CompanyEntry, freqDescSorted l →
      (insertDesc c l).filter (fun x => x.frequency == k)
        = l.filter (fun x => x.frequency == k)
          ++ (if c.frequency == k then [c] else []) := by
  intro l
  induction l with
  | nil =>
    intro _
    by_cases hk : c.frequency == k <;> simp [insertDesc, List.filter, hk]
  | cons d ds ih =>
    intro h
    rw [freqDescSorted, List.pairwise_cons] at h
    obtain ⟨hd, hds⟩ := h
    by_cases hlt : d.frequency < c.frequency
    · simp only [insertDesc, hlt, if_true]
      by_cases hk : c.frequency == k
      · have hck : c.frequency = k := by simpa using hk
        have hnil : (d :: ds).filter (fun x => x.frequency == k) = [] := by
          rw [List.filter_eq_nil]
          intro x hx
          have hxle : x.frequency ≤ d.frequency := by
            rcases List.mem_cons.mp hx with h1 | h2
            · subst h1; exact le_refl _
            · exact hd x h2
          have : x.frequency < k := lt_of_le_of_lt hxle (hck ▸ hlt)
          simp [ne_of_lt this]
        rw [List.filter_cons_of_pos (by simpa using hk)]
        rw [hnil]
        simp [hk, hnil]
      · rw [List.filter_cons_of_neg (by simpa using hk)]
        simp [hk]
    · simp only [insertDesc, hlt, if_false]
      by_cases hdk : d.frequency == k
      · rw [List.filter_cons_of_pos (by simpa using hdk),
            List.filter_cons_of_pos (by simpa using hdk), ih hds]
        simp
      · rw [List.filter_cons_of_neg (by simpa using hdk),
            List.filter_cons_of_neg (by simpa using hdk), ih hds]

/-- The insertion fold keeps the accumulator sorted. -/
theorem foldl_insertDesc_sorted (l : List CompanyEntry) :
    ∀ acc : List CompanyEntry, freqDescSorted acc →
      freqDescSorted (l.foldl (fun a c => insertDesc c a) acc) := by
  induction l with
  | nil => intro acc h; exact h
  | cons c t ih => intro acc h; exact ih _ (insertDesc_sorted c acc h)

/-- The insertion fold appends each equal-frequency fiber in input order. -/
theorem foldl_insertDesc_filter (k : Int) (l : List CompanyEntry) :
    ∀ acc : List CompanyEntry, freqDescSorted acc →
      (l.foldl (fun a c => insertDesc c a) acc).filter (fun x => x.frequency == k)
        = acc.filter (fun x => x.frequency == k)
          ++ l.filter (fun x => x.frequency == k) := by
  induction l with
  | nil => intro acc _; simp
  | cons c t ih =>
    intro acc h
    simp only [List.foldl_cons]
    rw [ih _ (insertDesc_sorted c acc h), insertDesc_filter c k acc h]
    by_cases hk : c.frequency == k
    · rw [List.filter_cons_of_pos (by simpa using hk)]
      simp [hk]
    · rw [List.filter_cons_of_neg (by simpa using hk)]
      simp [hk]

/-- The sort phase produces a descending-sorted list. -/
theorem sortCompaniesDesc_sorted (l : List CompanyEntry) :
    freqDescSorted (sortCompaniesDesc l) :=
  foldl_insertDesc_sorted l [] (by simp [freqDescSorted])

/-- The sort phase is stable: each equal-frequency fiber keeps its
original (discovery) order. -/
theorem sortCompaniesDesc_filter (l : List CompanyEntry) (k : Int) :
    (sortCompaniesDesc l).filter (fun x => x.frequency == k)
      = l.filter (fun x => x.frequency == k) := by
  have := foldl_insertDesc_filter k l [] (by simp [freqDescSorted])
  simpa [sortCompaniesDesc] using this

/-- C9: every problem in a freshly built index has its companies sorted
descending by frequency, and the list is the stable sort of that problem's
discovery-order company list (built by `buildRaw`): for every frequency
value, the entries having it appear exactly in their original discovery
order. -/
theorem build_companies_sorted_stable (st : DSState) (pdata : ParsedData)
    (p : ProblemData) (hp : p ∈ (buildProblemIndex st pdata).problemMap) :
    freqDescSorted p.companies
    ∧ ∃ d ∈ (buildRaw pdata).1,
        p.problem = d.problem ∧ p.slug = d.slug
        ∧ p.companies = sortCompaniesDesc d.companies
        ∧ ∀ k : Int, p.companies.filter (fun c => c.frequency == k)
            = d.companies.filter (fun c => c.frequency == k) := by
  simp only [buildProblemIndex, List.mem_map] at hp
  obtain ⟨d, hd, rfl⟩ := hp
  refine ⟨sortCompaniesDesc_sorted d.companies,
    ⟨d, hd, rfl, rfl, rfl, fun k => sortCompaniesDesc_filter d.companies k⟩⟩

/-- C9 (witness): building from two companies with frequencies 2 and 5 on
the same problem yields the descending, stably sorted company list. -/
theorem build_companies_sorted_stable_witness :
    ({ problem := chars "Two Sum", slug := chars "two-sum",
       companies :=
         [{ name := chars "Beta", frequency := 5,
            timeRanges := [chars "90-days"], last_seen := chars "90-days" },
          { name := chars "Acme", frequency := 2,
            timeRanges := [chars "30-days"], last_seen := chars "30-days" }] }
      : ProblemData) ∈
      (buildProblemIndex st0
        [(chars "Acme",
          [(chars "30-days", [{ title := chars "Two Sum", frequency := some 2 }])]),
         (chars "Beta",
          [(chars "90-days", [{ title := chars "Two Sum", frequency := some 5 }])])]).problemMap
    ∧ freqDescSorted
        [{ name := chars "Beta", frequency := 5,
           timeRanges := [chars "90-days"], last_seen := chars "90-days" },
         { name := chars "Acme", frequency := 2,
           timeRanges := [chars "30-days"], last_seen := chars "30-days" }] :=
  ⟨by decide,
   (build_companies_sorted_stable st0
      [(chars "Acme",
        [(chars "30-days", [{ title := chars "Two Sum", frequency := some 2 }])]),
       (chars "Beta",
        [(chars "90-days", [{ title := chars "Two Sum", frequency := some 5 }])])]
      { problem := chars "Two Sum", slug := chars "two-sum",
        companies :=
          [{ name := chars "Beta", frequency := 5,
             timeRanges := [chars "90-days"], last_seen := chars "90-days" },
           { name := chars "Acme", frequency := 2,
             timeRanges := [chars "30-days"], last_seen := chars "30-days" }] }
      (by decide)).1⟩

/-! ## C6 and C10: the search scan -/

/-- Every string contains the empty string as a substring
(JS `hay.includes('')` is always true). -/
theorem jsIncludes_nil (hay : Str) : jsIncludes hay [] = true := by
  cases hay <;> simp [jsIncludes, leadsWith, List.isEmpty]

/-- The early-exit scan of `searchProblems` equals filtering the index in
order and truncating after `limit - cnt` hits. -/
theorem searchLoop_filter_take (nq : Str) (limit : Int) :
    ∀ (l : List ProblemData) (cnt : Int), cnt < limit →
      searchLoop nq limit l cnt
        = ((l.filter (fun d => jsIncludes (d.problem.map Char.toLower) nq
              || jsIncludes d.slug nq)).take (limit - cnt).toNat).map toSearchResult := by
  intro l
  induction l with
  | nil => intro cnt _; simp [searchLoop]
  | cons d t ih =>
    intro cnt hcnt
    by_cases hm : (jsIncludes (d.problem.map Char.toLower) nq
        || jsIncludes d.slug nq) = true
    · by_cases hlim : cnt + 1 ≥ limit
      · have h1 : (limit - cnt).toNat = 1 := by omega
        simp [searchLoop, hm, hlim, h1, List.filter_cons]
      · have h2 : (limit - cnt).toNat = (limit - (cnt + 1)).toNat + 1 := by omega
        simp [searchLoop, hm, hlim, h2, List.filter_cons, ih (cnt + 1) (by omega)]
    · simp [searchLoop, hm, List.filter_cons, ih cnt hcnt]

/-- C6 (counterexample): the scan does not comparison-normalize: it only
lowercases and trims.  For the indexed title `"A  B"` (two internal
spaces) and the query `"a b"`, the comparison-normalized title does
contain the comparison-normalized query, yet `searchProblems` returns no
match, because neither the lowercased raw title `"a  b"` nor the identity
key `"a-b"` contains the unnormalized query `"a b"`. -/
theorem searchProblems_normalization_counterexample :
    jsIncludes (normalizeTitle (chars "A  B")) (normalizeTitle (chars "a b")) = true
    ∧ (buildProblemIndex st0
        [(chars "Acme",
          [(chars "30-days",
            [{ title := chars "A  B", frequency := some 1 }])])]).problemMap
      = [{ problem := chars "A  B", slug := chars "a-b",
           companies := [{ name := chars "Acme", frequency := 1,
                           timeRanges := [chars "30-days"],
                           last_seen := chars "30-days" }] }]
    ∧ searchProblems
        (buildProblemIndex st0
          [(chars "Acme",
            [(chars "30-days",
              [{ title := chars "A  B", frequency := some 1 }])])])
        (chars "a b") 10 = [] := by
  decide

/-- C6 (amended): `searchProblems` lowercases and trims the query (no
internal-whitespace collapsing), scans the index in its stable insertion
order, includes a problem if and only if that string occurs in the
lowercased display title or in the raw identity key, stops once `limit`
matches are collected (for `limit ≥ 1`), and returns the empty sequence —
not an error — when nothing matches. -/
theorem searchProblems_spec (st : DSState) (q : Str) (limit : Int)
    (h1 : 1 ≤ limit) :
    searchProblems st q limit
      = ((st.problemMap.filter
            (fun d => jsIncludes (d.problem.map Char.toLower) (jsTrim (q.map Char.toLower))
              || jsIncludes d.slug (jsTrim (q.map Char.toLower)))).take
          limit.toNat).map toSearchResult
    ∧ ((∀ d ∈ st.problemMap,
          (jsIncludes (d.problem.map Char.toLower) (jsTrim (q.map Char.toLower))
            || jsIncludes d.slug (jsTrim (q.map Char.toLower))) = false) →
        searchProblems st q limit = []) := by
  have key := searchLoop_filter_take (jsTrim (q.map Char.toLower)) limit
    st.problemMap 0 (by omega)
  constructor
  · simpa [searchProblems] using key
  · intro hnone
    have hnil : st.problemMap.filter
        (fun d => jsIncludes (d.problem.map Char.toLower) (jsTrim (q.map Char.toLower))
          || jsIncludes d.slug (jsTrim (q.map Char.toLower))) = [] := by
      rw [List.filter_eq_nil]
      intro d hd
      simp [hnone d hd]
    rw [searchProblems, key, hnil]
    simp

/-- C6 (witness): searching the demo index for `two` with limit 10. -/
theorem searchProblems_spec_witness :
    (1 : Int) ≤ 10
    ∧ searchProblems st1 (chars "two") 10
      = ((st1.problemMap.filter
            (fun d => jsIncludes (d.problem.map Char.toLower)
                (jsTrim ((chars "two").map Char.toLower))
              || jsIncludes d.slug (jsTrim ((chars "two").map Char.toLower)))).take
          (10 : Int).toNat).map toSearchResult :=
  ⟨by decide, (searchProblems_spec st1 (chars "two") 10 (by decide)).1⟩

/-- C10 (counterexample): with the query `""` and limit `0` the claim
predicts `min(0, totalProblems) = 0` results, but the scan checks
`results.length >= limit` only after pushing a match, so it returns one
result. -/
theorem searchProblems_limit_zero_counterexample :
    searchProblems st1 (chars "") 0
      = [{ problem := chars "Two Sum", slug := chars "two-sum", companyCount := 1 }]
    ∧ (st1.problemMap.take (Int.toNat 0)).map toSearchResult = [] := by
  decide

/-- C10 (amended): for an empty or whitespace-only query (its lowercased,
trimmed form is empty) and any limit of at least one, `searchProblems`
returns the first `min(limit, totalProblems)` problems of the index in
insertion order — every problem matches the empty substring — rather than
rejecting the query.  (For `limit ≤ 0` the scan instead returns the first
match alone, because the break check runs only after a push.) -/
theorem searchProblems_empty_query (st : DSState) (q : Str) (limit : Int)
    (hq : jsTrim (q.map Char.toLower) = []) (h1 : 1 ≤ limit) :
    searchProblems st q limit = (st.problemMap.take limit.toNat).map toSearchResult := by
  have key := searchLoop_filter_take (jsTrim (q.map Char.toLower)) limit
    st.problemMap 0 (by omega)
  rw [searchProblems, key]
  rw [List.filter_eq_self.mpr ?_]
  · simp
  · intro d _
    simp [hq, jsIncludes_nil]

/-- C10 (witness): a whitespace-only query on the demo index with limit 2
returns its single problem. -/
theorem searchProblems_empty_query_witness :
    jsTrim ((chars "   ").map Char.toLower) = []
    ∧ (1 : Int) ≤ 2
    ∧ searchProblems st1 (chars "   ") 2
      = (st1.problemMap.take (2 : Int).toNat).map toSearchResult :=
  ⟨by decide, by decide,
   searchProblems_empty_query st1 (chars "   ") 2 (by decide) (by decide)⟩

/-! ## The record stream of a build (for the index-level frequency theorem) -/

/-- The flat stream of `(companyName, timeRange, record)` triples that the
triple loop of `buildProblemIndex` visits, in visiting order. -/
def recordTriples (pd : ParsedData) : List (Str × Str × RawProblem) :=
  pd.flatMap (fun ce => ce.2.flatMap (fun re => re.2.map (fun p => (ce.1, re.1, p))))

/-- One step of the flattened loop. -/
def tripleStep (acc : List ProblemData × List (Str × Str))
    (t : Str × Str × RawProblem) : List ProblemData × List (Str × Str) :=
  processRecord t.1 t.2.1 acc t.2.2

/-- The frequencies of the records of the stream that concern one
(problem identity, company) pair, in processing order. -/
def freqsFor (slug cname : Str) (ts : List (Str × Str × RawProblem)) : List (Option Int) :=
  (ts.filter (fun t => t.1 = cname ∧ titleToSlug t.2.2.title = slug)).map
    (fun t => t.2.2.frequency)

/-- The nested folds of `buildRaw` equal one fold over the flat stream. -/
theorem buildRaw_eq_stream (pd : ParsedData) :
    buildRaw pd = (recordTriples pd).foldl tripleStep ([], []) := by
  have hrange : ∀ (cn tr : Str) (probs : List RawProblem) (acc),
      probs.foldl (processRecord cn tr) acc
        = (probs.map (fun p => (cn, tr, p))).foldl tripleStep acc := by
    intro cn tr probs acc
    rw [List.foldl_map]
    rfl
  have hcomp : ∀ (cn : Str) (ranges : List (Str × List RawProblem)) (acc),
      ranges.foldl (processRange cn) acc
        = (ranges.flatMap (fun re => re.2.map (fun p => (cn, re.1, p)))).foldl
            tripleStep acc := by
    intro cn ranges
    induction ranges with
    | nil => intro acc; rfl
    | cons re rest ih =>
      intro acc
      show rest.foldl (processRange cn) (processRange cn acc re) = _
      rw [ih, List.flatMap_cons, List.foldl_append, ← hrange]
      rfl
  have hmain : ∀ (pd : ParsedData) (acc),
      pd.foldl processCompany acc = (recordTriples pd).foldl tripleStep acc := by
    intro pd
    induction pd with
    | nil => intro acc; rfl
    | cons ce rest ih =>
      intro acc
      have h1 : recordTriples (ce :: rest)
          = (ce.2.flatMap (fun re => re.2.map (fun p => (ce.1, re.1, p))))
            ++ recordTriples rest := rfl
      show rest.foldl processCompany (processCompany acc ce) = _
      calc rest.foldl processCompany (processCompany acc ce)
          = (recordTriples rest).foldl tripleStep (processCompany acc ce) := ih _
        _ = (recordTriples rest).foldl tripleStep
              ((ce.2.flatMap (fun re => re.2.map (fun p => (ce.1, re.1, p)))).foldl
                tripleStep acc) := by rw [← hcomp ce.1 ce.2 acc]; rfl
        _ = (recordTriples (ce :: rest)).foldl tripleStep acc := by
              rw [h1, List.foldl_append]
  exact hmain pd ([], [])

/-- The frequency stored for the pair `(slug, cname)` in a problem map:
look up the first problem with that slug, then its first company entry
with that name. -/
def entryFreq (pm : List ProblemData) (slug cname : Str) : Option Int :=
  match pm.find? (fun d => d.slug = slug) with
  | none => none
  | some d =>
    match d.companies.find? (fun e => e.name = cname) with
    | none => none
    | some e => some e.frequency

/-- The fresh company entry pushed by `buildProblemIndex` before its first
update. -/
def freshEntry (cn : Str) : CompanyEntry :=
  { name := cn, frequency := 0, timeRanges := [], last_seen := [] }

/-- `updateEntry` does not change the company name. -/
theorem updateEntry_name (tr : Str) (f : Option Int) (e : CompanyEntry) :
    (updateEntry tr f e).name = e.name := rfl

/-- Effect of `updateCompanies` on a first-match-by-name lookup: the
queried company's entry is updated (or freshly created) exactly when the
query name is the processed company's name; all other names are
untouched. -/
theorem find?_updateCompanies (cn tr : Str) (f : Option Int) (cname : Str) :
    ∀ l : List CompanyEntry,
      (updateCompanies cn tr f l).find? (fun e => e.name = cname)
        = if cname = cn then
            some (updateEntry tr f
              ((l.find? (fun e => e.name = cn)).getD (freshEntry cn)))
          else l.find? (fun e => e.name = cname) := by
  intro l
  induction l with
  | nil =>
    by_cases hc : cname = cn
    · subst hc
      simp [updateCompanies, List.find?, updateEntry_name, freshEntry]
    · have hc2 : ¬cn = cname := fun h => hc h.symm
      simp [updateCompanies, List.find?, updateEntry_name, hc, hc2]
  | cons e es ih =>
    by_cases he : e.name = cn
    · by_cases hc : cname = cn
      · subst hc
        simp [updateCompanies, he, List.find?, updateEntry_name]
      · have hne : ¬e.name = cname := fun h => hc (h ▸ he ▸ rfl)
        have hc2 : ¬cn = cname := fun h => hc h.symm
        simp [updateCompanies, he, List.find?, updateEntry_name, hc, hne, hc2]
    · by_cases hc : cname = cn
      · subst hc
        have hne : ¬e.name = cname := he
        simp [updateCompanies, he, List.find?, hne, ih]
      · by_cases hec : e.name = cname
        · simp [updateCompanies, he, List.find?, hec, hc]
        · simp [updateCompanies, he, List.find?, hec, hc, ih]

/-- A slug-preserving per-entry rewrite commutes with the first-match-by-
slug lookup. -/
theorem find?_map_slugPreserving (g : ProblemData → ProblemData)
    (hg : ∀ d, (g d).slug = d.slug) (slug : Str) :
    ∀ pm : List ProblemData,
      (pm.map g).find? (fun d => d.slug = slug)
        = (pm.find? (fun d => d.slug = slug)).map g := by
  intro pm
  induction pm with
  | nil => rfl
  | cons d t ih =>
    by_cases hd : d.slug = slug
    · have : (g d).slug = slug := (hg d).trans hd
      simp [List.find?, hd, this]
    · have : ¬(g d).slug = slug := fun h => hd ((hg d) ▸ h)
      simp [List.find?, hd, this, ih]


/-- Effect of one `processRecord` step on the stored frequency of an
arbitrary pair: the pair of the processed record gets one `freqUpdate`
step applied to its current frequency (`0` when the entry does not exist
yet); every other pair is untouched. -/
theorem entryFreq_processRecord (cn tr : Str) (p : RawProblem)
    (acc : List ProblemData × List (Str × Str)) (slug cname : Str) :
    entryFreq (processRecord cn tr acc p).1 slug cname
      = if slug = titleToSlug p.title ∧ cname = cn then
          some (freqUpdate ((entryFreq acc.1 slug cname).getD 0) p.frequency)
        else entryFreq acc.1 slug cname := by
  have hgpres : ∀ d : ProblemData,
      (if d.slug = titleToSlug p.title then
        { d with companies := updateCompanies cn tr p.frequency d.companies }
      else d).slug = d.slug := by
    intro d
    by_cases hd : d.slug = titleToSlug p.title <;> simp [hd]
  by_cases hex : acc.1.any (fun d => d.slug = titleToSlug p.title) = true
  · have hstep : (processRecord cn tr acc p).1
        = acc.1.map (fun d => if d.slug = titleToSlug p.title then
            { d with companies := updateCompanies cn tr p.frequency d.companies }
          else d) := by
      simp [processRecord, hex]
    rw [hstep, entryFreq, find?_map_slugPreserving _ hgpres slug acc.1]
    cases hfind : acc.1.find? (fun d => d.slug = slug) with
    | none =>
      have hne : ¬(slug = titleToSlug p.title ∧ cname = cn) := by
        rintro ⟨h1, -⟩
        subst h1
        rw [List.any_eq_true] at hex
        obtain ⟨d, hd, hpd⟩ := hex
        exact (List.find?_eq_none.mp hfind d hd) hpd
      simp [entryFreq, hfind, hne]
    | some d =>
      have hd : d.slug = slug := by simpa using List.find?_some hfind
      by_cases hds : d.slug = titleToSlug p.title
      · have hss : slug = titleToSlug p.title := hd.symm.trans hds
        by_cases hcn : cname = cn
        · rw [if_pos ⟨hss, hcn⟩]
          simp only [Option.map_some']
          rw [if_pos hds]
          simp only [find?_updateCompanies cn tr p.frequency cname d.companies]
          rw [if_pos hcn]
          cases hce : d.companies.find? (fun e => e.name = cn) <;>
            simp [entryFreq, hfind, hce, hcn, updateEntry, freshEntry]
        · rw [if_neg (fun h => hcn h.2)]
          simp only [Option.map_some']
          rw [if_pos hds]
          simp only [find?_updateCompanies cn tr p.frequency cname d.companies]
          rw [if_neg hcn]
          simp [entryFreq, hfind]
      · have hne : ¬(slug = titleToSlug p.title ∧ cname = cn) :=
          fun h => hds (hd.trans h.1)
        rw [if_neg hne]
        simp only [Option.map_some']
        rw [if_neg hds]
        simp [entryFreq, hfind]
  · have hstep : (processRecord cn tr acc p).1
        = acc.1.map (fun d => if d.slug = titleToSlug p.title then
            { d with companies := updateCompanies cn tr p.frequency d.companies }
          else d)
          ++ [(⟨p.title, titleToSlug p.title,
               updateCompanies cn tr p.frequency []⟩ : ProblemData)] := by
      simp [processRecord, hex, List.map_append]
    have hnone : acc.1.find? (fun d => d.slug = titleToSlug p.title) = none := by
      rw [List.find?_eq_none]
      intro d hd hpd
      rw [Bool.not_eq_true, List.any_eq_false] at hex
      exact (hex d hd) hpd
    rw [hstep, entryFreq, List.find?_append,
      find?_map_slugPreserving _ hgpres slug acc.1]
    by_cases hss : slug = titleToSlug p.title
    · have hnoneslug : acc.1.find? (fun d => d.slug = slug) = none := by
        rw [hss]; exact hnone
      rw [hnoneslug, Option.map_none', Option.none_or]
      have hnew : ([(⟨p.title, titleToSlug p.title,
            updateCompanies cn tr p.frequency []⟩ : ProblemData)].find?
          (fun d => d.slug = slug))
          = some (⟨p.title, titleToSlug p.title,
              updateCompanies cn tr p.frequency []⟩ : ProblemData) := by
        simp [List.find?, hss]
      rw [hnew]
      have hacc : entryFreq acc.1 slug cname = none := by
        rw [entryFreq, hnoneslug]
      by_cases hcn : cname = cn
      · rw [if_pos ⟨hss, hcn⟩, hacc]
        simp only [find?_updateCompanies cn tr p.frequency cname []]
        rw [if_pos hcn]
        simp [List.find?, updateEntry, freshEntry]
      · rw [if_neg (fun h => hcn h.2), hacc]
        simp only [find?_updateCompanies cn tr p.frequency cname []]
        rw [if_neg hcn]
        simp [List.find?]
    · have hslugne : ¬((⟨p.title, titleToSlug p.title,
            updateCompanies cn tr p.frequency []⟩ : ProblemData).slug = slug) := by
        intro h
        exact hss h.symm
      have hnew : ([(⟨p.title, titleToSlug p.title,
            updateCompanies cn tr p.frequency []⟩ : ProblemData)].find?
          (fun d => d.slug = slug)) = none := by
        simp [List.find?, hslugne]
      rw [hnew]
      rw [if_neg (fun h : slug = titleToSlug p.title ∧ cname = cn => hss h.1)]
      cases hfind : acc.1.find? (fun d => d.slug = slug) with
      | none => simp [entryFreq, hfind]
      | some d =>
        have hd : d.slug = slug := by simpa using List.find?_some hfind
        have hds : ¬d.slug = titleToSlug p.title := fun h => hss (hd.symm.trans h)
        have hor : ((some d).map
            (fun d => if d.slug = titleToSlug p.title then
              { d with companies := updateCompanies cn tr p.frequency d.companies }
            else d)).or none
            = some (if d.slug = titleToSlug p.title then
                { d with companies := updateCompanies cn tr p.frequency d.companies }
              else d) := rfl
        rw [hor, if_neg hds]
        simp [entryFreq, hfind]

/-- Folding a stream of records: the stored frequency of a pair is the
`freqUpdate` fold of exactly that pair's record frequencies (and the entry
exists exactly when at least one such record was processed). -/
theorem entryFreq_foldl_stream (slug cname : Str) :
    ∀ (ts : List (Str × Str × RawProblem)) (acc : List ProblemData × List (Str × Str)),
      entryFreq (ts.foldl tripleStep acc).1 slug cname
        = if freqsFor slug cname ts = [] then entryFreq acc.1 slug cname
          else some (List.foldl freqUpdate ((entryFreq acc.1 slug cname).getD 0)
                       (freqsFor slug cname ts)) := by
  intro ts
  induction ts with
  | nil => intro acc; simp [freqsFor]
  | cons t rest ih =>
    intro acc
    have hstep := entryFreq_processRecord t.1 t.2.1 t.2.2 acc slug cname
    by_cases hm : t.1 = cname ∧ titleToSlug t.2.2.title = slug
    · have hfreqs : freqsFor slug cname (t :: rest)
          = t.2.2.frequency :: freqsFor slug cname rest := by
        simp [freqsFor, List.filter_cons, hm]
      have hcond : slug = titleToSlug t.2.2.title ∧ cname = t.1 :=
        ⟨hm.2.symm, hm.1.symm⟩
      have hef : entryFreq (tripleStep acc t).1 slug cname
          = some (freqUpdate ((entryFreq acc.1 slug cname).getD 0)
              t.2.2.frequency) := by
        rw [show (tripleStep acc t).1 = (processRecord t.1 t.2.1 acc t.2.2).1
              from rfl, hstep, if_pos hcond]
      rw [List.foldl_cons, ih (tripleStep acc t), hef, hfreqs]
      by_cases hrest : freqsFor slug cname rest = [] <;> simp [hrest]
    · have hfreqs : freqsFor slug cname (t :: rest) = freqsFor slug cname rest := by
        simp [freqsFor, List.filter_cons, hm]
      have hcond : ¬(slug = titleToSlug t.2.2.title ∧ cname = t.1) :=
        fun h => hm ⟨h.2.symm, h.1.symm⟩
      have hef : entryFreq (tripleStep acc t).1 slug cname
          = entryFreq acc.1 slug cname := by
        rw [show (tripleStep acc t).1 = (processRecord t.1 t.2.1 acc t.2.2).1
              from rfl, hstep, if_neg hcond]
      rw [List.foldl_cons, ih (tripleStep acc t), hef, hfreqs]

/-! ## Uniqueness invariants of the problem map -/

/-- Keys are unique: distinct problems have distinct slugs, and within a
problem distinct company entries have distinct names (the JS `Map` and the
find-or-push discipline guarantee both). -/
def IndexInv (pm : List ProblemData) : Prop :=
  (pm.map (fun d => d.slug)).Nodup
  ∧ ∀ d ∈ pm, (d.companies.map (fun e => e.name)).Nodup

/-- The name list of an updated company list: unchanged when the company
already exists, extended by the new name otherwise. -/
theorem names_updateCompanies (cn tr : Str) (f : Option Int) :
    ∀ l : List CompanyEntry,
      (updateCompanies cn tr f l).map (fun e => e.name)
        = if l.any (fun e => e.name = cn) then l.map (fun e => e.name)
          else l.map (fun e => e.name) ++ [cn] := by
  intro l
  induction l with
  | nil => simp [updateCompanies, updateEntry_name]
  | cons e es ih =>
    by_cases he : e.name = cn
    · have hany : (e :: es).any (fun x => x.name = cn) = true :=
        List.any_eq_true.mpr ⟨e, List.mem_cons_self e es, by simpa using he⟩
      simp [updateCompanies, he, hany, updateEntry_name]
    · have hany : (e :: es).any (fun x => x.name = cn)
          = es.any (fun x => x.name = cn) := by
        simp [List.any_cons, he]
      rw [hany]
      by_cases hes : es.any (fun x => x.name = cn) = true <;>
        simp [updateCompanies, he, hes, ih]

/-- `updateCompanies` preserves uniqueness of company names. -/
theorem updateCompanies_nodup (cn tr : Str) (f : Option Int)
    (l : List CompanyEntry) (h : (l.map (fun e => e.name)).Nodup) :
    ((updateCompanies cn tr f l).map (fun e => e.name)).Nodup := by
  rw [names_updateCompanies]
  by_cases hany : l.any (fun e => e.name = cn) = true
  · simpa [hany] using h
  · rw [if_neg hany]
    rw [Bool.not_eq_true, List.any_eq_false] at hany
    have hnot : cn ∉ l.map (fun e => e.name) := by
      intro hmem
      obtain ⟨e, he, hname⟩ := List.mem_map.mp hmem
      exact (hany e he) (by simpa using hname)
    simp [List.nodup_append, h, hnot]

/-- One `processRecord` step preserves the uniqueness invariants. -/
theorem processRecord_inv (cn tr : Str) (p : RawProblem)
    (acc : List ProblemData × List (Str × Str)) (h : IndexInv acc.1) :
    IndexInv (processRecord cn tr acc p).1 := by
  obtain ⟨hslugs, hnames⟩ := h
  have hmapslugs : ∀ pm : List ProblemData,
      (pm.map (fun d => if d.slug = titleToSlug p.title then
          { d with companies := updateCompanies cn tr p.frequency d.companies }
        else d)).map (fun d => d.slug) = pm.map (fun d => d.slug) := by
    intro pm
    rw [List.map_map]
    apply List.map_congr_left
    intro d _
    by_cases hd : d.slug = titleToSlug p.title <;> simp [hd]
  have hcompanies : ∀ pm : List ProblemData,
      (∀ d ∈ pm, (d.companies.map (fun e => e.name)).Nodup) →
      ∀ d ∈ pm.map (fun d => if d.slug = titleToSlug p.title then
          { d with companies := updateCompanies cn tr p.frequency d.companies }
        else d), (d.companies.map (fun e => e.name)).Nodup := by
    intro pm hpm d hd
    obtain ⟨d0, hd0, rfl⟩ := List.mem_map.mp hd
    by_cases h0 : d0.slug = titleToSlug p.title
    · simpa [h0] using updateCompanies_nodup cn tr p.frequency d0.companies (hpm d0 hd0)
    · simpa [h0] using hpm d0 hd0
  by_cases hex : acc.1.any (fun d => d.slug = titleToSlug p.title) = true
  · have hstep : (processRecord cn tr acc p).1
        = acc.1.map (fun d => if d.slug = titleToSlug p.title then
            { d with companies := updateCompanies cn tr p.frequency d.companies }
          else d) := by
      simp [processRecord, hex]
    rw [hstep]
    exact ⟨by rw [hmapslugs]; exact hslugs, hcompanies acc.1 hnames⟩
  · have hstep : (processRecord cn tr acc p).1
        = acc.1.map (fun d => if d.slug = titleToSlug p.title then
            { d with companies := updateCompanies cn tr p.frequency d.companies }
          else d)
          ++ [(⟨p.title, titleToSlug p.title,
               updateCompanies cn tr p.frequency []⟩ : ProblemData)] := by
      simp [processRecord, hex, List.map_append]
    rw [hstep]
    constructor
    · rw [List.map_append, hmapslugs]
      rw [Bool.not_eq_true, List.any_eq_false] at hex
      have hnot : titleToSlug p.title ∉ acc.1.map (fun d => d.slug) := by
        intro hmem
        obtain ⟨d, hd, hs⟩ := List.mem_map.mp hmem
        exact (hex d hd) (by simpa using hs)
      simp [List.nodup_append, hslugs, hnot]
    · intro d hd
      rcases List.mem_append.mp hd with hl | hr
      · exact hcompanies acc.1 hnames d hl
      · have : d = (⟨p.title, titleToSlug p.title,
            updateCompanies cn tr p.frequency []⟩ : ProblemData) := by
          simpa using hr
        subst this
        simpa using updateCompanies_nodup cn tr p.frequency [] (by simp)
  
/-- The whole stream fold preserves the invariants. -/
theorem foldl_tripleStep_inv :
    ∀ (ts : List (Str × Str × RawProblem)) (acc : List ProblemData × List (Str × Str)),
      IndexInv acc.1 → IndexInv ((ts.foldl tripleStep acc).1) := by
  intro ts
  induction ts with
  | nil => intro acc h; exact h
  | cons t rest ih =>
    intro acc h
    exact ih (tripleStep acc t) (processRecord_inv t.1 t.2.1 t.2.2 acc h)

/-- The accumulated (pre-sort) index satisfies the uniqueness invariants. -/
theorem buildRaw_inv (pdata : ParsedData) : IndexInv (buildRaw pdata).1 := by
  rw [buildRaw_eq_stream]
  exact foldl_tripleStep_inv (recordTriples pdata) ([], []) ⟨by simp, by simp⟩

/-- With unique slugs, looking up a member problem's slug finds exactly
that problem. -/
theorem find?_slug_self :
    ∀ pm : List ProblemData, (pm.map (fun d => d.slug)).Nodup →
      ∀ d ∈ pm, pm.find? (fun x => x.slug = d.slug) = some d := by
  intro pm
  induction pm with
  | nil => intro _ d hd; cases hd
  | cons h t ih =>
    intro hnd d hd
    rw [List.map_cons, List.nodup_cons] at hnd
    rcases List.mem_cons.mp hd with rfl | hdt
    · simp [List.find?]
    · have hne : ¬h.slug = d.slug := by
        intro he
        exact hnd.1 (he ▸ List.mem_map.mpr ⟨d, hdt, rfl⟩)
      have hdec : decide (h.slug = d.slug) = false := by simp [hne]
      simp only [List.find?, hdec]
      exact ih hnd.2 d hdt

/-- With unique names, looking up a member entry's name finds exactly that
entry. -/
theorem find?_name_self :
    ∀ l : List CompanyEntry, (l.map (fun e => e.name)).Nodup →
      ∀ e ∈ l, l.find? (fun x => x.name = e.name) = some e := by
  intro l
  induction l with
  | nil => intro _ e he; cases he
  | cons h t ih =>
    intro hnd e he
    rw [List.map_cons, List.nodup_cons] at hnd
    rcases List.mem_cons.mp he with rfl | het
    · simp [List.find?]
    · have hne : ¬h.name = e.name := by
        intro hname
        exact hnd.1 (hname ▸ List.mem_map.mpr ⟨e, het, rfl⟩)
      have hdec : decide (h.name = e.name) = false := by simp [hne]
      simp only [List.find?, hdec]
      exact ih hnd.2 e het

/-- Under the uniqueness invariants, `entryFreq` reads off exactly the
frequency of a member entry. -/
theorem entryFreq_of_mem (pm : List ProblemData) (hinv : IndexInv pm)
    (d : ProblemData) (hd : d ∈ pm) (e : CompanyEntry) (he : e ∈ d.companies) :
    entryFreq pm d.slug e.name = some e.frequency := by
  rw [entryFreq, find?_slug_self pm hinv.1 d hd]
  simp only [find?_name_self d.companies (hinv.2 d hd) e he]

/-- The stable sort does not add or remove company entries. -/
theorem mem_sortCompaniesDesc (x : CompanyEntry) (l : List CompanyEntry) :
    x ∈ sortCompaniesDesc l ↔ x ∈ l := by
  have key : ∀ (l acc : List CompanyEntry),
      x ∈ l.foldl (fun a c => insertDesc c a) acc ↔ x ∈ acc ∨ x ∈ l := by
    intro l
    induction l with
    | nil => intro acc; simp
    | cons c t ih =>
      intro acc
      rw [List.foldl_cons, ih (insertDesc c acc)]
      rw [show (x ∈ insertDesc c acc) = (x = c ∨ x ∈ acc) from propext mem_insertDesc]
      simp only [List.mem_cons]
      tauto
  simpa [sortCompaniesDesc] using key l []

/-- Permutation invariance of the frequency fold: the per-record update is
right-commutative, so processing order does not matter. -/
theorem foldl_freqUpdate_perm (l1 l2 : List (Option Int)) (h : l1.Perm l2) :
    ∀ b : Int, l1.foldl freqUpdate b = l2.foldl freqUpdate b := by
  induction h with
  | nil => intro b; rfl
  | cons x _ ih => intro b; simp only [List.foldl_cons]; exact ih _
  | swap x y l => intro b; simp only [List.foldl_cons]; rw [freqUpdate_right_comm]
  | trans _ _ ih1 ih2 => intro b; rw [ih1, ih2]

/-- C7: for every (problem, company) pair of a freshly built index, the
stored `frequency` equals the maximum over the positive frequencies of all
records folded in for that pair (`freqsFor` lists them in processing
order; the fold starts from the fresh entry's `0`); moreover the fold
never decreases as more records are folded in, a record with frequency `0`
or with no frequency leaves it unchanged, and the result is independent of
the processing order. -/
theorem maxFrequency_after_build (st : DSState) (pdata : ParsedData)
    (p : ProblemData) (c : CompanyEntry)
    (hp : p ∈ (buildProblemIndex st pdata).problemMap)
    (hc : c ∈ p.companies) :
    c.frequency
      = List.foldl max 0 (posFreqs (freqsFor p.slug c.name (recordTriples pdata)))
    ∧ (∀ (fs : List (Option Int)) (cur : Int), cur ≤ List.foldl freqUpdate cur fs)
    ∧ (∀ cur : Int, freqUpdate cur none = cur ∧ freqUpdate cur (some 0) = cur)
    ∧ (∀ fs fs' : List (Option Int), fs.Perm fs' →
        List.foldl freqUpdate 0 fs = List.foldl freqUpdate 0 fs') := by
  refine ⟨?_, fun fs cur => le_foldl_freqUpdate fs cur,
    fun cur => ⟨rfl, by simp [freqUpdate]⟩,
    fun fs fs' h => foldl_freqUpdate_perm fs fs' h 0⟩
  simp only [buildProblemIndex, List.mem_map] at hp
  obtain ⟨d, hd, rfl⟩ := hp
  have hcd : c ∈ d.companies := (mem_sortCompaniesDesc c d.companies).mp hc
  have hmem := entryFreq_of_mem (buildRaw pdata).1 (buildRaw_inv pdata) d hd c hcd
  have hstream := entryFreq_foldl_stream d.slug c.name (recordTriples pdata) ([], [])
  rw [← buildRaw_eq_stream] at hstream
  by_cases hnil : freqsFor d.slug c.name (recordTriples pdata) = []
  · rw [hmem, if_pos hnil] at hstream
    exact absurd hstream (by simp [entryFreq])
  · rw [hmem, if_neg hnil] at hstream
    have hfold : c.frequency
        = List.foldl freqUpdate 0 (freqsFor d.slug c.name (recordTriples pdata)) := by
      have h2 : some c.frequency = some (List.foldl freqUpdate 0
          (freqsFor d.slug c.name (recordTriples pdata))) := by
        simpa using hstream
      exact Option.some.inj h2
    calc c.frequency
        = List.foldl freqUpdate 0 (freqsFor d.slug c.name (recordTriples pdata)) :=
          hfold
      _ = List.foldl max 0 (posFreqs (freqsFor d.slug c.name (recordTriples pdata))) :=
          foldl_freqUpdate_eq_max _ 0 le_rfl

/-- C7 (witness): one company reporting the same problem in two windows
with frequencies 2 and 5; the built entry stores 5, the positive maximum. -/
theorem maxFrequency_after_build_witness :
    ({ problem := chars "Two Sum", slug := chars "two-sum",
       companies := [{ name := chars "Acme", frequency := 5,
                       timeRanges := [chars "30-days", chars "90-days"],
                       last_seen := chars "30-days" }] } : ProblemData) ∈
      (buildProblemIndex st0
        [(chars "Acme",
          [(chars "30-days", [{ title := chars "Two Sum", frequency := some 2 }]),
           (chars "90-days", [{ title := chars "Two Sum", frequency := some 5 }])])]).problemMap
    ∧ (5 : Int)
      = List.foldl max 0 (posFreqs (freqsFor (chars "two-sum") (chars "Acme")
          (recordTriples
            [(chars "Acme",
              [(chars "30-days", [{ title := chars "Two Sum", frequency := some 2 }]),
               (chars "90-days", [{ title := chars "Two Sum", frequency := some 5 }])])]))) :=
  ⟨by decide,
   (maxFrequency_after_build st0
      [(chars "Acme",
        [(chars "30-days", [{ title := chars "Two Sum", frequency := some 2 }]),
         (chars "90-days", [{ title := chars "Two Sum", frequency := some 5 }])])]
      { problem := chars "Two Sum", slug := chars "two-sum",
        companies := [{ name := chars "Acme", frequency := 5,
                        timeRanges := [chars "30-days", chars "90-days"],
                        last_seen := chars "30-days" }] }
      { name := chars "Acme", frequency := 5,
        timeRanges := [chars "30-days", chars "90-days"],
        last_seen := chars "30-days" }
      (by decide) (by decide)).1⟩
